import Mathlib

/-!
Shallow embedding of `src/objective.py` (class `ObjectiveTest`): fill-in-the-blank
objective-test generation.  External collaborators (the `nltk` tokenizer / POS
tagger, the `RegexpParser` chunker and the wordnet database) enter as explicit
inputs; everything downstream of them is translated from the source.
-/

namespace AVS

/-- The `trivial` dictionary built by `identify_potential_questions`:
fields `Answer`, `Key`, `Similar`, `Question`. -/
structure QRecord where
  Answer : String
  Key : Nat
  Similar : List String
  Question : String
deriving DecidableEq, Repr

/-- The quote character used in `phrase.startswith("'")`. -/
def quoteChar : Char := Char.ofNat 39

/-- Python `phrase.startswith("'")`. -/
def startsWithQuote (p : String) : Bool :=
  match p.data with
  | [] => false
  | c :: _ => c = quoteChar

/-- Python substring test `word in phrase`. -/
def inStr (w p : String) : Bool := decide (List.IsInfix w.data p.data)

/-- Helper for Python `str.split()` (no argument): accumulate the current word
(in reverse) and cut at whitespace runs, dropping empty pieces. -/
def splitWordsAux (cur : List Char) : List Char → List (List Char)
  | [] => if cur.isEmpty then [] else [cur.reverse]
  | c :: rest =>
    if c.isWhitespace then
      if cur.isEmpty then splitWordsAux [] rest
      else cur.reverse :: splitWordsAux [] rest
    else splitWordsAux (c :: cur) rest

/-- Python `phrase.split()`: whitespace-separated words, no empties. -/
def pysplit (s : String) : List String :=
  (splitWordsAux [] s.data).map String.mk

/-- Python list slice `l[-2:]`. -/
def takeLast2 (l : List α) : List α := l.drop (l.length - 2)

/-- Python `sep.join(l)`. -/
def pyjoin (sep : String) : List String → String
  | [] => ""
  | [w] => w
  | w :: v :: rest => w ++ sep ++ pyjoin sep (v :: rest)

/-- The inner `for phrase in noun_phrases` loop of `identify_potential_questions`
(lines 119-124): the words extended onto `replace_nouns`.  A phrase starting with
a quote breaks out with nothing selected; a phrase containing `word` as a
substring contributes the last two whitespace-separated words of the phrase. -/
def scanPhrases (word : String) : List String → List String
  | [] => []
  | p :: rest =>
    if startsWithQuote p then []
    else if inStr word p then takeLast2 (pysplit p)
    else scanPhrases word rest

/-- The outer `for word, _ in tags` loop (lines 118-127): the unconditional
`break` at the end of the body makes it examine only the first tagged token;
when the phrase scan selected nothing, the first token's word is appended. -/
def select_replace_nouns (tags : List (String × String)) (nps : List String) :
    List String :=
  match tags with
  | [] => []
  | (word, _) :: _ =>
    let fromPhrase := scanPhrases word nps
    if fromPhrase.isEmpty then [word] else fromPhrase

/-- Python `min(len(word) for word in replace_nouns)` (only ever applied after
the nonemptiness check at line 129). -/
def minLen : List String → Nat
  | [] => 0
  | [w] => w.length
  | w :: v :: rest => min w.length (minLen (v :: rest))

/-- Case-insensitive literal prefix test: models `re.IGNORECASE` matching of the
`re.escape`d pattern at the head of `s`. -/
def lcPrefix (pat s : List Char) : Bool :=
  (pat.map Char.toLower).isPrefixOf (s.map Char.toLower)

/-- Position of the first case-insensitive occurrence of `pat` in `s`. -/
def firstOcc (pat : List Char) : List Char → Option Nat
  | [] => if lcPrefix pat [] then some 0 else none
  | c :: rest =>
    if lcPrefix pat (c :: rest) then some 0
    else (firstOcc pat rest).map (fun n => n + 1)

/-- Python `re.sub(re.escape(pat), repl, s, count=1)` with `re.IGNORECASE`,
on character lists: replace the first case-insensitive literal occurrence. -/
def isubL (pat repl : List Char) : List Char → List Char
  | [] => if lcPrefix pat [] then repl else []
  | c :: rest =>
    if lcPrefix pat (c :: rest) then repl ++ (c :: rest).drop pat.length
    else c :: isubL pat repl rest

/-- String-level wrapper for `isubL` (line 148-149 of the source). -/
def isub (pat repl s : String) : String := String.mk (isubL pat.data repl.data s.data)

/-- The blank glyph run `"__________"`. -/
def blankMarker : String := "__________"

/-- Python `"__________" * n`. -/
def strRepeat (s : String) : Nat → String
  | 0 => ""
  | n + 1 => s ++ strRepeat s n

/-- `ObjectiveTest.identify_potential_questions`, shallowly embedded.  `tags` is
the external tagger output `nltk.pos_tag(nltk.word_tokenize(sentence))` (one
pair per token, so `len(tokens) = tags.length`), `nps` the chunker's candidate
noun phrases (space-joined `CHUNK` leaves), and `d` the distractor lookup
standing for `self.answer_options`.  An empty token list makes `tags[0]` raise
`IndexError`, which the surrounding `try` turns into `None`. -/
def identify_potential_questions (tags : List (String × String)) (nps : List String)
    (sentence : String) (d : String → List String) : Option QRecord :=
  match tags with
  | [] => none
  | (_, t0) :: _ =>
    if t0 = "RB" ∨ tags.length < 4 then none
    else
      let replace_nouns := select_replace_nouns tags nps
      if replace_nouns.isEmpty then none
      else
        let val := minLen replace_nouns
        let answer := pyjoin " " replace_nouns
        let similar := match replace_nouns with
          | [w] => d w
          | _ => []
        let blanks_phrase := strRepeat blankMarker replace_nouns.length
        let question := isub answer blanks_phrase sentence
        some { Answer := answer, Key := val, Similar := similar, Question := question }

/-- The `Key > 3` filter at lines 41-44 of `generate_test`. -/
def question_answers_of (records : List QRecord) : List QRecord :=
  records.filter (fun r => decide (3 < r.Key))

/-- The sampling `while` loop of `generate_test` (lines 50-55).  The successive
values of `np.random.randint(0, len(question_answers))` are supplied as the list
`draws`; `none` means the supplied draws ran out before the loop finished (the
Python loop would keep drawing, possibly forever). -/
def sampleLoop (qa : List QRecord) (num_questions : Nat) :
    List Nat → List String → List String → Option (List String × List String)
  | [], questions, answers =>
    if num_questions ≤ questions.length then some (questions, answers) else none
  | r :: rest, questions, answers =>
    if num_questions ≤ questions.length then some (questions, answers)
    else
      match qa.get? r with
      | none => none
      | some q =>
        if q.Question ∈ questions then
          sampleLoop qa num_questions rest questions answers
        else
          sampleLoop qa num_questions rest (questions ++ [q.Question])
            (answers ++ [q.Answer])

/-- `ObjectiveTest.generate_test` on an already-extracted record collection.
`Except.error` models the raised `ValueError`; `Except.ok none` means the
sampling loop did not finish within the supplied draws. -/
def generate_test (records : List QRecord) (num_questions : Nat)
    (draws : List Nat) : Except String (Option (List String × List String)) :=
  if (question_answers_of records).length = 0 then
    Except.error "No questions available in question_answers."
  else Except.ok (sampleLoop (question_answers_of records) num_questions draws [] [])

/-- Abstract wordnet interface for `answer_options`: noun synsets per word
(`none` models a raised lookup exception, caught at line 167), hypernym and
hyponym lists per synset id, and each synset's first lemma name. -/
structure WordNet where
  synsets : String → Option (List Nat)
  hypernyms : Nat → List Nat
  hyponyms : Nat → List Nat
  firstLemmaName : Nat → String

/-- `ObjectiveTest.answer_options` over the abstract wordnet `db`. -/
def answer_options (db : WordNet) (word : String) : List String :=
  match db.synsets word with
  | none => []
  | some [] => []
  | some (synset :: _) =>
    match db.hypernyms synset with
    | [] => []
    | hypernym :: _ =>
      (((db.hyponyms hypernym).map
          (fun h => (db.firstLemmaName h).replace "_" " ")).filter
        (fun nm => nm != word)).take 8

/-- One sentence's external inputs: tagger output, candidate phrases, raw text. -/
structure SentenceData where
  tags : List (String × String)
  nps : List String
  text : String

/-- `ObjectiveTest.get_question_sets`: collect the non-`None` per-sentence
results in sentence order. -/
def get_question_sets (sents : List SentenceData) (d : String → List String) :
    List QRecord :=
  sents.filterMap (fun s => identify_potential_questions s.tags s.nps s.text d)

/-! ### Helper lemmas -/

/-- Relation between a selected question and its answer: both fields come from a
single record of the filtered pool. -/
def FromPool (qa : List QRecord) (q a : String) : Prop :=
  ∃ r, r ∈ qa ∧ r.Question = q ∧ r.Answer = a

theorem forall2_snoc {R : α → β → Prop} {l₁ : List α} {l₂ : List β} {a : α} {b : β}
    (h : List.Forall₂ R l₁ l₂) (hab : R a b) :
    List.Forall₂ R (l₁ ++ [a]) (l₂ ++ [b]) := by
  induction h with
  | nil => exact List.Forall₂.cons hab List.Forall₂.nil
  | cons h₁ _ ih => exact List.Forall₂.cons h₁ ih

theorem nodup_snoc {l : List α} {a : α} (h : l.Nodup) (ha : a ∉ l) :
    (l ++ [a]).Nodup := by
  rw [List.nodup_append]
  exact ⟨h, List.nodup_singleton a, by simpa using ha⟩

theorem sampleLoop_spec (qa : List AVS.QRecord) (n : Nat) (draws : List Nat) :
    ∀ (qs ans : List String) (res : List String × List String),
      qs.length ≤ n →
      List.Forall₂ (FromPool qa) qs ans →
      qs.Nodup →
      sampleLoop qa n draws qs ans = some res →
      res.1.length = n ∧ res.1.Nodup ∧ List.Forall₂ (FromPool qa) res.1 res.2 := by
  induction draws with
  | nil =>
    intro qs ans res hlen hpar hnd h
    simp only [sampleLoop] at h
    split at h
    · cases h
      exact ⟨Nat.le_antisymm hlen (by assumption), hnd, hpar⟩
    · exact absurd h (by simp)
  | cons r rest ih =>
    intro qs ans res hlen hpar hnd h
    simp only [sampleLoop] at h
    split at h
    · cases h
      exact ⟨Nat.le_antisymm hlen (by assumption), hnd, hpar⟩
    · rename_i hlt
      split at h
      · exact absurd h (by simp)
      · rename_i q hget
        have hqmem : q ∈ qa := List.get?_mem hget
        split at h
        · exact ih qs ans res hlen hpar hnd h
        · rename_i hnew
          refine ih (qs ++ [q.Question]) (ans ++ [q.Answer]) res ?_ ?_ ?_ h
          · have : qs.length < n := Nat.lt_of_not_le hlt
            simpa using this
          · exact forall2_snoc hpar ⟨q, hqmem, rfl, rfl⟩
          · exact nodup_snoc hnd hnew

/-! ### Claims about `generate_test` -/

/-- C1: whenever `generate_test` returns from the sampling loop, it returns
exactly `num_questions` questions, pairwise distinct, and the answer at each
index comes from the same filtered record as the question at that index. -/
theorem generate_test_success_spec (records : List AVS.QRecord) (n : Nat)
    (draws : List Nat) (qs ans : List String)
    (h : generate_test records n draws = Except.ok (some (qs, ans))) :
    qs.length = n ∧ ans.length = n ∧ qs.Nodup ∧
      List.Forall₂ (FromPool (question_answers_of records)) qs ans := by
  unfold generate_test at h
  split at h
  · exact absurd h (by simp)
  · have h' : sampleLoop (question_answers_of records) n draws [] [] = some (qs, ans) :=
      Except.ok.inj h
    obtain ⟨h1, h2, h3⟩ :=
      sampleLoop_spec (question_answers_of records) n draws [] [] (qs, ans)
        (Nat.zero_le n) List.Forall₂.nil List.nodup_nil h'
    exact ⟨h1, h3.length_eq ▸ h1, h2, h3⟩

theorem generate_test_success_spec_witness :
    (["q1", "q2"] : List String).length = 2 ∧
      (["a1", "a2"] : List String).length = 2 ∧
      (["q1", "q2"] : List String).Nodup ∧
      List.Forall₂
        (FromPool (question_answers_of
          [⟨"a1", 4, [], "q1"⟩, ⟨"a2", 5, [], "q2"⟩]))
        ["q1", "q2"] ["a1", "a2"] :=
  generate_test_success_spec [⟨"a1", 4, [], "q1"⟩, ⟨"a2", 5, [], "q2"⟩] 2
    [0, 0, 1] ["q1", "q2"] ["a1", "a2"] rfl

/-- C3: `generate_test` keeps exactly the records with `Key > 3`, raises the
`ValueError` exactly when that filtered pool is empty, and that `ValueError`
carries the single fixed message — the only error at the API boundary. -/
theorem generate_test_filter_error (records : List AVS.QRecord) (n : Nat)
    (draws : List Nat) :
    (∀ r, r ∈ question_answers_of records ↔ r ∈ records ∧ 3 < r.Key) ∧
      ((∃ e, generate_test records n draws = Except.error e) ↔
        question_answers_of records = []) ∧
      (∀ e, generate_test records n draws = Except.error e →
        e = "No questions available in question_answers.") := by
  refine ⟨fun r => by simp [question_answers_of], ?_, ?_⟩
  · unfold generate_test
    constructor
    · rintro ⟨e, he⟩
      split at he
      · exact List.length_eq_zero.mp (by assumption)
      · exact absurd he (by simp)
    · intro hnil
      refine ⟨"No questions available in question_answers.", ?_⟩
      simp [hnil]
  · intro e he
    unfold generate_test at he
    split at he
    · exact (Except.error.inj he).symm
    · exact absurd he (by simp)

theorem generate_test_filter_error_witness :
    (∀ r, r ∈ question_answers_of [⟨"a", 1, [], "q"⟩] ↔
      r ∈ [(⟨"a", 1, [], "q"⟩ : AVS.QRecord)] ∧ 3 < r.Key) ∧
      ((∃ e, generate_test [⟨"a", 1, [], "q"⟩] 3 [] = Except.error e) ↔
        question_answers_of [⟨"a", 1, [], "q"⟩] = []) ∧
      (∀ e, generate_test [⟨"a", 1, [], "q"⟩] 3 [] = Except.error e →
        e = "No questions available in question_answers.") :=
  generate_test_filter_error [⟨"a", 1, [], "q"⟩] 3 []

/-- C9 counterexample: a corpus yielding no viable records makes
`generate_test` with `num_questions = 0` raise the `ValueError` instead of
returning the empty pair. -/
theorem generate_test_zero_cex :
    generate_test [] 0 [] =
        Except.error "No questions available in question_answers." ∧
      generate_test [] 0 [] ≠ Except.ok (some ([], [])) := by
  refine ⟨rfl, fun h => ?_⟩
  rw [(rfl : generate_test [] 0 [] =
    Except.error "No questions available in question_answers.")] at h
  exact Except.noConfusion h

/-- C9 amended: when the filtered pool is nonempty, `generate_test` with
`num_questions = 0` returns `([], [])` without consuming any random draw (in
particular it succeeds on the empty draw stream). -/
theorem generate_test_zero_amended (records : List AVS.QRecord) (draws : List Nat)
    (h : question_answers_of records ≠ []) :
    generate_test records 0 draws = Except.ok (some ([], [])) := by
  unfold generate_test
  rw [if_neg (by simpa using fun hc => h (List.length_eq_zero.mp hc))]
  cases draws <;> rfl

theorem generate_test_zero_amended_witness :
    generate_test [⟨"a", 4, [], "q"⟩] 0 [7, 8] = Except.ok (some ([], [])) :=
  generate_test_zero_amended [⟨"a", 4, [], "q"⟩] [7, 8] (by decide)

/-! ### Claims about `identify_potential_questions` -/

/-- C4: a sentence is rejected when its first token is tagged `RB` or it has
fewer than four tokens (the empty token list raises and is also rejected). -/
theorem identify_reject (tags : List (String × String)) (nps : List String)
    (s : String) (d : String → List String)
    (h : (∃ w rest, tags = (w, "RB") :: rest) ∨ tags.length < 4) :
    identify_potential_questions tags nps s d = none := by
  cases tags with
  | nil => rfl
  | cons p rest =>
    obtain ⟨w, t0⟩ := p
    have hcond : t0 = "RB" ∨ ((w, t0) :: rest).length < 4 := by
      rcases h with ⟨w', rest', heq⟩ | hlen
      · obtain ⟨h1, -⟩ := List.cons.inj heq
        exact Or.inl (congrArg Prod.snd h1)
      · exact Or.inr hlen
    simp only [identify_potential_questions]
    split
    · rfl
    · rename_i hns
      exact absurd hcond hns

theorem identify_reject_witness :
    identify_potential_questions
        [("quickly", "RB"), ("the", "DT"), ("dog", "NN"), ("ran", "VBD")]
        [] "quickly the dog ran" (fun _ => []) = none :=
  identify_reject _ [] "quickly the dog ran" (fun _ => [])
    (Or.inl ⟨"quickly", [("the", "DT"), ("dog", "NN"), ("ran", "VBD")], rfl⟩)

/-- Structural description of every record `identify_potential_questions`
produces: all four fields are computed from the selected word list. -/
theorem identify_some_eq (tags : List (String × String)) (nps : List String)
    (s : String) (d : String → List String) (r : QRecord)
    (h : identify_potential_questions tags nps s d = some r) :
    tags ≠ [] ∧
      select_replace_nouns tags nps ≠ [] ∧
      r.Answer = pyjoin " " (select_replace_nouns tags nps) ∧
      r.Key = minLen (select_replace_nouns tags nps) ∧
      r.Question = isub (pyjoin " " (select_replace_nouns tags nps))
        (strRepeat blankMarker (select_replace_nouns tags nps).length) s ∧
      (∀ w, select_replace_nouns tags nps = [w] → r.Similar = d w) ∧
      ((select_replace_nouns tags nps).length ≠ 1 → r.Similar = []) := by
  cases tags with
  | nil => exact absurd h (by simp [identify_potential_questions])
  | cons p rest =>
    obtain ⟨w, t0⟩ := p
    simp only [identify_potential_questions] at h
    split at h
    · exact absurd h (by simp)
    · split at h
      · exact absurd h (by simp)
      · rename_i hne
        cases h
        refine ⟨by simp, fun hc => hne (by simp [hc]), rfl, rfl, rfl, ?_, ?_⟩
        · intro w' hw'
          simp only [hw']
        · intro hlen1
          rcases hsel : select_replace_nouns ((w, t0) :: rest) nps with
            _ | ⟨a, _ | ⟨b, l⟩⟩
          · exact absurd (by simp [hsel]) hne
          · exact absurd (by rw [hsel]; rfl) hlen1
          · simp only [hsel]

theorem minLen_le (l : List String) : ∀ w ∈ l, minLen l ≤ w.length := by
  induction l with
  | nil => simp
  | cons a t ih =>
    intro w hw
    cases t with
    | nil =>
      simp only [List.mem_singleton] at hw
      subst hw
      exact Nat.le_refl _
    | cons b t' =>
      simp only [minLen]
      rcases List.mem_cons.mp hw with rfl | hw'
      · exact min_le_left _ _
      · exact le_trans (min_le_right _ _) (ih w hw')

theorem minLen_mem (l : List String) (hl : l ≠ []) :
    ∃ w ∈ l, minLen l = w.length := by
  induction l with
  | nil => exact absurd rfl hl
  | cons a t ih =>
    cases t with
    | nil => exact ⟨a, List.mem_singleton_self a, rfl⟩
    | cons b t' =>
      obtain ⟨w, hw, hmin⟩ := ih (by simp)
      simp only [minLen]
      rcases le_total a.length (minLen (b :: t')) with hc | hc
      · exact ⟨a, List.mem_cons_self _ _, (min_eq_left hc).symm ▸ rfl⟩
      · exact ⟨w, List.mem_cons_of_mem a hw, by rw [min_eq_right hc, hmin]⟩

/-- C8: `Key` is the minimum character length among the selected words, and
`Similar` is the distractor list exactly when one word was selected. -/
theorem identify_key_similar (tags : List (String × String)) (nps : List String)
    (s : String) (d : String → List String) (r : QRecord)
    (h : identify_potential_questions tags nps s d = some r) :
    (∃ w ∈ select_replace_nouns tags nps, r.Key = w.length) ∧
      (∀ w ∈ select_replace_nouns tags nps, r.Key ≤ w.length) ∧
      (∀ w, select_replace_nouns tags nps = [w] → r.Similar = d w) ∧
      ((select_replace_nouns tags nps).length ≠ 1 → r.Similar = []) := by
  obtain ⟨-, hne, -, hkey, -, hsim1, hsim2⟩ := identify_some_eq tags nps s d r h
  refine ⟨?_, ?_, hsim1, hsim2⟩
  · obtain ⟨w, hw, hmin⟩ := minLen_mem _ hne
    exact ⟨w, hw, by rw [hkey, hmin]⟩
  · intro w hw
    rw [hkey]
    exact minLen_le _ w hw

theorem identify_key_similar_witness :
    (∃ w ∈ select_replace_nouns
        [("hello", "NN"), ("a", "NN"), ("b", "NN"), ("cc", "NN")] [],
      (⟨"hello", 5, ["dx"], "__________ a b cc"⟩ : QRecord).Key = w.length) ∧
      (∀ w ∈ select_replace_nouns
          [("hello", "NN"), ("a", "NN"), ("b", "NN"), ("cc", "NN")] [],
        (⟨"hello", 5, ["dx"], "__________ a b cc"⟩ : QRecord).Key ≤ w.length) ∧
      (∀ w, select_replace_nouns
          [("hello", "NN"), ("a", "NN"), ("b", "NN"), ("cc", "NN")] [] = [w] →
        (⟨"hello", 5, ["dx"], "__________ a b cc"⟩ : QRecord).Similar =
          (fun _ => ["dx"]) w) ∧
      ((select_replace_nouns
          [("hello", "NN"), ("a", "NN"), ("b", "NN"), ("cc", "NN")] []).length ≠ 1 →
        (⟨"hello", 5, ["dx"], "__________ a b cc"⟩ : QRecord).Similar = []) :=
  identify_key_similar [("hello", "NN"), ("a", "NN"), ("b", "NN"), ("cc", "NN")]
    [] "hello a b cc" (fun _ => ["dx"]) ⟨"hello", 5, ["dx"], "__________ a b cc"⟩ rfl

theorem takeLast2_ne_nil {l : List String} (h : l ≠ []) : takeLast2 l ≠ [] := by
  intro hc
  have := List.drop_eq_nil_iff.mp hc
  have h1 : 1 ≤ l.length := List.length_pos.mpr h
  omega

/-- The inner phrase loop, re-expressed: among the phrases reached before any
quote-initial phrase, find the first containing the word. -/
theorem scanPhrases_eq (w : String) (nps : List String) :
    scanPhrases w nps =
      match (nps.takeWhile (fun p => !startsWithQuote p)).find?
          (fun p => inStr w p) with
      | some p => takeLast2 (pysplit p)
      | none => [] := by
  induction nps with
  | nil => rfl
  | cons p rest ih =>
    by_cases hq : startsWithQuote p = true
    · simp [scanPhrases, hq, List.takeWhile_cons]
    · rw [Bool.not_eq_true] at hq
      by_cases hin : inStr w p = true
      · simp [scanPhrases, hq, hin, List.takeWhile_cons, List.find?_cons]
      · rw [Bool.not_eq_true] at hin
        simp [scanPhrases, hq, hin, List.takeWhile_cons, List.find?_cons, ih]

/-- C5: only the first tagged token is examined; a phrase hit selects the last
two whitespace-separated words of the first matching phrase before any
quote-initial phrase, else exactly the first token's word is selected.  The
hypothesis `hnp` is the chunker contract: candidate phrases are space-joins of
one or more tokens, so they contain at least one whitespace-separated word. -/
theorem select_first_token_only (w t : String) (rest : List (String × String))
    (nps : List String) (hnp : ∀ p ∈ nps, pysplit p ≠ []) :
    select_replace_nouns ((w, t) :: rest) nps =
        select_replace_nouns [(w, t)] nps ∧
      (∀ p, (nps.takeWhile (fun q => !startsWithQuote q)).find?
          (fun q => inStr w q) = some p →
        select_replace_nouns ((w, t) :: rest) nps = takeLast2 (pysplit p)) ∧
      ((nps.takeWhile (fun q => !startsWithQuote q)).find?
          (fun q => inStr w q) = none →
        select_replace_nouns ((w, t) :: rest) nps = [w]) := by
  refine ⟨rfl, ?_, ?_⟩
  · intro p hp
    have hmem : p ∈ nps :=
      ((nps.takeWhile_sublist (fun q => !startsWithQuote q)).subset)
        (List.mem_of_find?_eq_some hp)
    have hscan : scanPhrases w nps = takeLast2 (pysplit p) := by
      rw [scanPhrases_eq, hp]
    have hne : takeLast2 (pysplit p) ≠ [] := takeLast2_ne_nil (hnp p hmem)
    simp only [select_replace_nouns, hscan]
    rw [if_neg (by simpa [List.isEmpty_iff] using hne)]
  · intro hnone
    have hscan : scanPhrases w nps = [] := by rw [scanPhrases_eq, hnone]
    simp [select_replace_nouns, hscan]

theorem select_first_token_only_witness :
    select_replace_nouns [("beta", "NN"), ("x", "NN")] ["alpha beta gamma"] =
        select_replace_nouns [("beta", "NN")] ["alpha beta gamma"] ∧
      (∀ p, (["alpha beta gamma"].takeWhile
            (fun q => !startsWithQuote q)).find? (fun q => inStr "beta" q) =
          some p →
        select_replace_nouns [("beta", "NN"), ("x", "NN")] ["alpha beta gamma"] =
          takeLast2 (pysplit p)) ∧
      ((["alpha beta gamma"].takeWhile
            (fun q => !startsWithQuote q)).find? (fun q => inStr "beta" q) =
          none →
        select_replace_nouns [("beta", "NN"), ("x", "NN")] ["alpha beta gamma"] =
          ["beta"]) :=
  select_first_token_only "beta" "NN" [("x", "NN")] ["alpha beta gamma"]
    (by decide)

/-! ### The case-insensitive single replacement -/

theorem firstOcc_none_isub (pat repl : List Char) :
    ∀ s, firstOcc pat s = none → isubL pat repl s = s := by
  intro s
  induction s with
  | nil =>
    intro h
    simp only [firstOcc] at h
    simp only [isubL]
    split at h
    · exact absurd h (by simp)
    · rw [if_neg (by assumption)]
  | cons c rest ih =>
    intro h
    simp only [firstOcc] at h
    split at h
    · exact absurd h (by simp)
    · rename_i hnp
      simp only [isubL]
      rw [if_neg hnp]
      have hrest : firstOcc pat rest = none := by
        cases hfo : firstOcc pat rest
        · rfl
        · rw [hfo] at h
          exact absurd h (by simp)
      rw [ih hrest]

theorem firstOcc_some_isub (pat repl : List Char) :
    ∀ s i, firstOcc pat s = some i →
      isubL pat repl s = s.take i ++ repl ++ s.drop (i + pat.length) := by
  intro s
  induction s with
  | nil =>
    intro i h
    simp only [firstOcc] at h
    split at h
    · rename_i hp
      cases h
      simp only [isubL]
      rw [if_pos hp]
      simp
    · exact absurd h (by simp)
  | cons c rest ih =>
    intro i h
    simp only [firstOcc] at h
    split at h
    · rename_i hp
      cases h
      simp only [isubL]
      rw [if_pos hp]
      simp
    · rename_i hnp
      cases hfo : firstOcc pat rest with
      | none =>
        rw [hfo] at h
        exact absurd h (by simp)
      | some j =>
        rw [hfo] at h
        obtain rfl : j + 1 = i := by simpa using h
        simp only [isubL]
        rw [if_neg hnp, ih j hfo]
        have harith : j + 1 + pat.length = (j + pat.length) + 1 := by omega
        rw [harith, List.drop_succ_cons, List.take_succ_cons]
        simp

theorem firstOcc_hit (pat : List Char) :
    ∀ s i, firstOcc pat s = some i → lcPrefix pat (s.drop i) = true := by
  intro s
  induction s with
  | nil =>
    intro i h
    simp only [firstOcc] at h
    split at h
    · rename_i hp
      cases h
      exact hp
    · exact absurd h (by simp)
  | cons c rest ih =>
    intro i h
    simp only [firstOcc] at h
    split at h
    · rename_i hp
      cases h
      exact hp
    · cases hfo : firstOcc pat rest with
      | none =>
        rw [hfo] at h
        exact absurd h (by simp)
      | some j =>
        rw [hfo] at h
        obtain rfl : j + 1 = i := by simpa using h
        rw [List.drop_succ_cons]
        exact ih j hfo

theorem firstOcc_least (pat : List Char) :
    ∀ s i, firstOcc pat s = some i →
      ∀ j, j < i → lcPrefix pat (s.drop j) = false := by
  intro s
  induction s with
  | nil =>
    intro i h j hj
    simp only [firstOcc] at h
    split at h
    · cases h
      exact absurd hj (by omega)
    · exact absurd h (by simp)
  | cons c rest ih =>
    intro i h j hj
    simp only [firstOcc] at h
    split at h
    · cases h
      exact absurd hj (by omega)
    · rename_i hnp
      cases hfo : firstOcc pat rest with
      | none =>
        rw [hfo] at h
        exact absurd h (by simp)
      | some k =>
        rw [hfo] at h
        obtain rfl : k + 1 = i := by simpa using h
        cases j with
        | zero =>
          simpa using Bool.not_eq_true _ |>.mp hnp
        | succ j' =>
          rw [List.drop_succ_cons]
          exact ih k hfo j' (by omega)

/-- C7: the `question` field is the sentence with the first case-insensitive
literal occurrence of the space-joined selected phrase replaced, once, by the
blank glyph run repeated per selected word; without an occurrence the sentence
is unchanged. -/
theorem identify_question_construction (tags : List (String × String))
    (nps : List String) (s : String) (d : String → List String) (r : QRecord)
    (h : identify_potential_questions tags nps s d = some r) :
    r.Question = isub (pyjoin " " (select_replace_nouns tags nps))
        (strRepeat blankMarker (select_replace_nouns tags nps).length) s ∧
      (∀ i, firstOcc (pyjoin " " (select_replace_nouns tags nps)).data s.data =
          some i →
        lcPrefix (pyjoin " " (select_replace_nouns tags nps)).data
            (s.data.drop i) = true ∧
        (∀ j, j < i →
          lcPrefix (pyjoin " " (select_replace_nouns tags nps)).data
            (s.data.drop j) = false) ∧
        r.Question.data = s.data.take i ++
          (strRepeat blankMarker (select_replace_nouns tags nps).length).data ++
          s.data.drop (i + (pyjoin " " (select_replace_nouns tags nps)).data.length)) ∧
      (firstOcc (pyjoin " " (select_replace_nouns tags nps)).data s.data = none →
        r.Question = s) := by
  obtain ⟨-, -, -, -, hq, -, -⟩ := identify_some_eq tags nps s d r h
  refine ⟨hq, ?_, ?_⟩
  · intro i hi
    refine ⟨firstOcc_hit _ _ _ hi, firstOcc_least _ _ _ hi, ?_⟩
    rw [hq]
    show isubL _ _ _ = _
    rw [firstOcc_some_isub _ _ _ _ hi]
  · intro hnone
    rw [hq]
    show String.mk (isubL _ _ _) = s
    rw [firstOcc_none_isub _ _ _ hnone]

theorem identify_question_construction_witness :
    (⟨"hello", 5, [], "__________ a b cc"⟩ : QRecord).Question =
        isub (pyjoin " " (select_replace_nouns
            [("hello", "NN"), ("a", "NN"), ("b", "NN"), ("cc", "NN")] []))
          (strRepeat blankMarker (select_replace_nouns
            [("hello", "NN"), ("a", "NN"), ("b", "NN"), ("cc", "NN")] []).length)
          "hello a b cc" ∧
      (∀ i, firstOcc (pyjoin " " (select_replace_nouns
            [("hello", "NN"), ("a", "NN"), ("b", "NN"), ("cc", "NN")] [])).data
          ("hello a b cc" : String).data = some i →
        lcPrefix (pyjoin " " (select_replace_nouns
            [("hello", "NN"), ("a", "NN"), ("b", "NN"), ("cc", "NN")] [])).data
            (("hello a b cc" : String).data.drop i) = true ∧
        (∀ j, j < i →
          lcPrefix (pyjoin " " (select_replace_nouns
              [("hello", "NN"), ("a", "NN"), ("b", "NN"), ("cc", "NN")] [])).data
            (("hello a b cc" : String).data.drop j) = false) ∧
        (⟨"hello", 5, [], "__________ a b cc"⟩ : QRecord).Question.data =
          ("hello a b cc" : String).data.take i ++
          (strRepeat blankMarker (select_replace_nouns
            [("hello", "NN"), ("a", "NN"), ("b", "NN"), ("cc", "NN")] []).length).data ++
          ("hello a b cc" : String).data.drop (i + (pyjoin " " (select_replace_nouns
            [("hello", "NN"), ("a", "NN"), ("b", "NN"), ("cc", "NN")] [])).data.length)) ∧
      (firstOcc (pyjoin " " (select_replace_nouns
            [("hello", "NN"), ("a", "NN"), ("b", "NN"), ("cc", "NN")] [])).data
          ("hello a b cc" : String).data = none →
        (⟨"hello", 5, [], "__________ a b cc"⟩ : QRecord).Question = "hello a b cc") :=
  identify_question_construction
    [("hello", "NN"), ("a", "NN"), ("b", "NN"), ("cc", "NN")] [] "hello a b cc"
    (fun _ => []) ⟨"hello", 5, [], "__________ a b cc"⟩ rfl

/-! ### Blanked-word invariants -/

theorem splitWordsAux_ne_nil :
    ∀ (l cur w : List Char), w ∈ splitWordsAux cur l → w ≠ [] := by
  intro l
  induction l with
  | nil =>
    intro cur w hw
    simp only [splitWordsAux] at hw
    split at hw
    · cases hw
    · rename_i hcur
      rw [List.mem_singleton] at hw
      subst hw
      intro hc
      exact hcur (List.isEmpty_iff.mpr (List.reverse_eq_nil_iff.mp hc))
  | cons c rest ih =>
    intro cur w hw
    simp only [splitWordsAux] at hw
    split at hw
    · split at hw
      · exact ih [] w hw
      · rename_i hcur
        rcases List.mem_cons.mp hw with rfl | hw'
        · intro hc
          exact hcur (List.isEmpty_iff.mpr (List.reverse_eq_nil_iff.mp hc))
        · exact ih [] w hw'
    · exact ih (c :: cur) w hw

theorem scanPhrases_eq_some {w p : String} {nps : List String}
    (hfind : (nps.takeWhile (fun q => !startsWithQuote q)).find?
      (fun q => inStr w q) = some p) :
    scanPhrases w nps = takeLast2 (pysplit p) := by
  rw [scanPhrases_eq, hfind]

theorem scanPhrases_eq_none {w : String} {nps : List String}
    (hfind : (nps.takeWhile (fun q => !startsWithQuote q)).find?
      (fun q => inStr w q) = none) :
    scanPhrases w nps = [] := by
  rw [scanPhrases_eq, hfind]

/-- Every selected word is either a whitespace-separated word of some string
(phrase branch) or the first token's surface word (fallback branch). -/
theorem select_mem_cases (tags : List (String × String)) (nps : List String) :
    ∀ w' ∈ select_replace_nouns tags nps,
      (∃ p, w' ∈ pysplit p) ∨ (∃ t rest, tags = (w', t) :: rest) := by
  cases tags with
  | nil => simp [select_replace_nouns]
  | cons p0 rest =>
    obtain ⟨w, t0⟩ := p0
    intro w' hw'
    simp only [select_replace_nouns] at hw'
    split at hw'
    · rw [List.mem_singleton] at hw'
      subst hw'
      exact Or.inr ⟨t0, rest, rfl⟩
    · left
      cases hfind : (nps.takeWhile (fun q => !startsWithQuote q)).find?
          (fun q => inStr w q) with
      | none =>
        rw [scanPhrases_eq_none hfind] at hw'
        cases hw'
      | some p =>
        rw [scanPhrases_eq_some hfind] at hw'
        exact ⟨p, List.drop_subset _ _ hw'⟩

theorem pyjoin_ne_empty :
    ∀ (l : List String), l ≠ [] → (∀ w ∈ l, w ≠ "") → pyjoin " " l ≠ "" := by
  intro l
  match l with
  | [] => intro h _; exact absurd rfl h
  | [w] =>
    intro _ hw
    simpa [pyjoin] using hw w (List.mem_singleton_self w)
  | w :: v :: rest =>
    intro _ _ hc
    have hd := congrArg String.data hc
    simp only [pyjoin, String.data_append] at hd
    rcases List.append_eq_nil.mp hd with ⟨hd1, -⟩
    rcases List.append_eq_nil.mp hd1 with ⟨-, hd2⟩
    exact absurd hd2 (by decide)

/-- C2 counterexample: a first token whose surface form does not occur in the
sentence (as real tokenization produces, e.g. nltk's `` quote token) yields a
record whose question contains no blank marker at all. -/
theorem identify_no_blank_cex :
    identify_potential_questions
        [("xyz", "NN"), ("aa", "NN"), ("bb", "NN"), ("cc", "NN")] []
        "hello world out there" (fun _ => []) =
      some ⟨"xyz", 3, [], "hello world out there"⟩ ∧
      ¬ List.IsInfix blankMarker.data ("hello world out there" : String).data :=
  ⟨rfl, by decide⟩

/-- C2 amended: every produced record blanks a nonempty word list; with
nonempty token surface forms (the tokenizer contract) the answer is nonempty;
and whenever the joined answer phrase occurs case-insensitively in the
sentence, the question contains at least one blank marker. -/
theorem identify_blank_invariant (tags : List (String × String))
    (nps : List String) (s : String) (d : String → List String) (r : QRecord)
    (h : identify_potential_questions tags nps s d = some r)
    (htok : ∀ w ∈ tags.map Prod.fst, w ≠ "") :
    select_replace_nouns tags nps ≠ [] ∧
      r.Answer ≠ "" ∧
      (firstOcc r.Answer.data s.data ≠ none →
        List.IsInfix blankMarker.data r.Question.data) := by
  obtain ⟨htags, hne, hans, -, hq, -, -⟩ := identify_some_eq tags nps s d r h
  refine ⟨hne, ?_, ?_⟩
  · rw [hans]
    refine pyjoin_ne_empty _ hne ?_
    intro w' hw'
    rcases select_mem_cases tags nps w' hw' with ⟨p, hp⟩ | ⟨t, rest, hts⟩
    · obtain ⟨lw, hlw, rfl⟩ := List.mem_map.mp hp
      intro hc
      exact splitWordsAux_ne_nil _ _ _ hlw (congrArg String.data hc)
    · apply htok
      rw [hts]
      simp
  · intro hocc
    obtain ⟨i, hi⟩ := Option.ne_none_iff_exists'.mp hocc
    rw [hans] at hi
    have hqd : r.Question.data = s.data.take i ++
        (strRepeat blankMarker (select_replace_nouns tags nps).length).data ++
        s.data.drop
          (i + (pyjoin " " (select_replace_nouns tags nps)).data.length) := by
      rw [hq]
      show isubL _ _ _ = _
      rw [firstOcc_some_isub _ _ _ _ hi]
    obtain ⟨a, l, hsel⟩ := List.exists_cons_of_ne_nil hne
    rw [hsel] at hqd
    have hrep : (strRepeat blankMarker (a :: l).length).data =
        blankMarker.data ++ (strRepeat blankMarker l.length).data := by
      show (blankMarker ++ strRepeat blankMarker l.length).data = _
      rw [String.data_append]
    rw [hrep] at hqd
    refine ⟨s.data.take i, (strRepeat blankMarker l.length).data ++
      s.data.drop
        (i + (pyjoin " " (select_replace_nouns tags nps)).data.length), ?_⟩
    rw [hsel, hqd]
    simp [List.append_assoc]

theorem identify_blank_invariant_witness :
    select_replace_nouns
        [("hello", "NN"), ("a", "NN"), ("b", "NN"), ("cc", "NN")] [] ≠ [] ∧
      (⟨"hello", 5, [], "__________ a b cc"⟩ : QRecord).Answer ≠ "" ∧
      (firstOcc (⟨"hello", 5, [], "__________ a b cc"⟩ : QRecord).Answer.data
          ("hello a b cc" : String).data ≠ none →
        List.IsInfix blankMarker.data
          (⟨"hello", 5, [], "__________ a b cc"⟩ : QRecord).Question.data) :=
  identify_blank_invariant
    [("hello", "NN"), ("a", "NN"), ("b", "NN"), ("cc", "NN")] [] "hello a b cc"
    (fun _ => []) ⟨"hello", 5, [], "__________ a b cc"⟩ rfl (by decide)

/-! ### Selection length -/

theorem takeLast2_length_le (l : List String) : (takeLast2 l).length ≤ 2 := by
  simp only [takeLast2, List.length_drop]
  omega

theorem scanPhrases_length_le (w : String) (nps : List String) :
    (scanPhrases w nps).length ≤ 2 := by
  cases hfind : (nps.takeWhile (fun q => !startsWithQuote q)).find?
      (fun q => inStr w q) with
  | none =>
    rw [scanPhrases_eq_none hfind]
    simp
  | some p =>
    rw [scanPhrases_eq_some hfind]
    exact takeLast2_length_le _

theorem select_length_le (tags : List (String × String)) (nps : List String) :
    (select_replace_nouns tags nps).length ≤ 2 := by
  cases tags with
  | nil => simp [select_replace_nouns]
  | cons p0 rest =>
    obtain ⟨w, t0⟩ := p0
    simp only [select_replace_nouns]
    split
    · simp
    · exact scanPhrases_length_le w nps

theorem splitWordsAux_word :
    ∀ (w : List Char), (∀ c ∈ w, ¬ c.isWhitespace = true) →
      ∀ cur rest,
        splitWordsAux cur (w ++ rest) = splitWordsAux (w.reverse ++ cur) rest := by
  intro w
  induction w with
  | nil =>
    intro _ cur rest
    simp
  | cons c w' ih =>
    intro hw cur rest
    have hc : ¬ c.isWhitespace = true := hw c (List.mem_cons_self _ _)
    simp only [List.cons_append, splitWordsAux, List.append_eq]
    rw [if_neg hc, ih (fun x hx => hw x (List.mem_cons_of_mem c hx)) (c :: cur) rest]
    congr 1
    simp [List.append_assoc]

theorem splitWordsAux_single (w : List Char) (hw0 : w ≠ [])
    (hw : ∀ c ∈ w, ¬ c.isWhitespace = true) : splitWordsAux [] w = [w] := by
  conv_lhs => rw [show w = w ++ [] from (List.append_nil _).symm]
  rw [splitWordsAux_word w hw [] []]
  simp only [splitWordsAux, List.append_nil]
  rw [if_neg (by simpa [List.isEmpty_iff, List.reverse_eq_nil_iff] using hw0)]
  simp

theorem pysplit_word (a : String) (ha : a ≠ "")
    (hw : ∀ c ∈ a.data, ¬ c.isWhitespace = true) : pysplit a = [a] := by
  have hda : a.data ≠ [] := fun hc => ha (congrArg String.mk hc)
  simp only [pysplit, splitWordsAux_single a.data hda hw, List.map_cons,
    List.map_nil]

theorem pysplit_pair (a b : String) (ha : a ≠ "") (hb : b ≠ "")
    (hwa : ∀ c ∈ a.data, ¬ c.isWhitespace = true)
    (hwb : ∀ c ∈ b.data, ¬ c.isWhitespace = true) :
    pysplit (a ++ " " ++ b) = [a, b] := by
  have hda : a.data ≠ [] := fun hc => ha (congrArg String.mk hc)
  have hdb : b.data ≠ [] := fun hc => hb (congrArg String.mk hc)
  have hdata : (a ++ " " ++ b).data = a.data ++ (Char.ofNat 32 :: b.data) := by
    rw [String.data_append, String.data_append, List.append_assoc]
    rfl
  simp only [pysplit, hdata]
  rw [splitWordsAux_word a.data hwa [] _]
  simp only [List.append_nil, splitWordsAux]
  rw [if_pos (by decide  : (Char.ofNat 32).isWhitespace = true),
    if_neg (by simpa [List.isEmpty_iff, List.reverse_eq_nil_iff] using hda),
    splitWordsAux_single b.data hdb hwb]
  simp

/-- C10: every produced record blanks exactly one or two words; the answer is
their space-join, so for nonempty whitespace-free words the answer consists of
exactly that many (hence at most two) whitespace-separated words. -/
theorem identify_selection_count (tags : List (String × String))
    (nps : List String) (s : String) (d : String → List String) (r : QRecord)
    (h : identify_potential_questions tags nps s d = some r) :
    ((select_replace_nouns tags nps).length = 1 ∨
        (select_replace_nouns tags nps).length = 2) ∧
      r.Answer = pyjoin " " (select_replace_nouns tags nps) ∧
      ((∀ w ∈ select_replace_nouns tags nps,
          w ≠ "" ∧ ∀ c ∈ w.data, ¬ c.isWhitespace = true) →
        (pysplit r.Answer).length = (select_replace_nouns tags nps).length) := by
  obtain ⟨-, hne, hans, -, -, -, -⟩ := identify_some_eq tags nps s d r h
  have hlen2 := select_length_le tags nps
  have hlen1 : 1 ≤ (select_replace_nouns tags nps).length :=
    List.length_pos.mpr hne
  refine ⟨by omega, hans, ?_⟩
  intro hws
  rcases hsel : select_replace_nouns tags nps with _ | ⟨a, _ | ⟨b, l⟩⟩
  · exact absurd hsel hne
  · obtain ⟨ha, hwa⟩ := hws a (by rw [hsel]; exact List.mem_singleton_self a)
    rw [hans, hsel]
    simp only [pyjoin]
    rw [pysplit_word a ha hwa]
  · have hl : l = [] := by
      have h2 := hlen2
      rw [hsel] at h2
      simp only [List.length_cons] at h2
      exact List.length_eq_zero.mp (by omega)
    subst hl
    obtain ⟨ha, hwa⟩ := hws a (by rw [hsel]; simp)
    obtain ⟨hb, hwb⟩ := hws b (by rw [hsel]; simp)
    rw [hans, hsel]
    simp only [pyjoin]
    rw [pysplit_pair a b ha hb hwa hwb]

theorem identify_selection_count_witness :
    ((select_replace_nouns
        [("hello", "NN"), ("a", "NN"), ("b", "NN"), ("cc", "NN")] []).length = 1 ∨
      (select_replace_nouns
        [("hello", "NN"), ("a", "NN"), ("b", "NN"), ("cc", "NN")] []).length = 2) ∧
      (⟨"hello", 5, [], "__________ a b cc"⟩ : QRecord).Answer =
        pyjoin " " (select_replace_nouns
          [("hello", "NN"), ("a", "NN"), ("b", "NN"), ("cc", "NN")] []) ∧
      ((∀ w ∈ select_replace_nouns
          [("hello", "NN"), ("a", "NN"), ("b", "NN"), ("cc", "NN")] [],
          w ≠ "" ∧ ∀ c ∈ w.data, ¬ c.isWhitespace = true) →
        (pysplit (⟨"hello", 5, [], "__________ a b cc"⟩ : QRecord).Answer).length =
          (select_replace_nouns
            [("hello", "NN"), ("a", "NN"), ("b", "NN"), ("cc", "NN")] []).length) :=
  identify_selection_count
    [("hello", "NN"), ("a", "NN"), ("b", "NN"), ("cc", "NN")] [] "hello a b cc"
    (fun _ => []) ⟨"hello", 5, [], "__________ a b cc"⟩ rfl

/-! ### Claims about `answer_options` -/

/-- C6: `answer_options` never returns the input word (compared after
underscore replacement, case-sensitively), never returns more than eight
entries, and returns the empty list when there is no noun synset, no hypernym,
or the lookup raised. -/
theorem answer_options_spec (db : WordNet) (word : String) :
    word ∉ answer_options db word ∧
      (answer_options db word).length ≤ 8 ∧
      (db.synsets word = none → answer_options db word = []) ∧
      (db.synsets word = some [] → answer_options db word = []) ∧
      (∀ synset rest, db.synsets word = some (synset :: rest) →
        db.hypernyms synset = [] → answer_options db word = []) := by
  refine ⟨?_, ?_, ?_, ?_, ?_⟩
  · intro hmem
    unfold answer_options at hmem
    split at hmem
    · cases hmem
    · cases hmem
    · split at hmem
      · cases hmem
      · have h1 := List.mem_of_mem_take hmem
        have h2 := (List.mem_filter.mp h1).2
        rw [bne_self_eq_false] at h2
        cases h2
  · unfold answer_options
    split
    · simp
    · simp
    · split
      · simp
      · exact List.length_take_le _ _
  · intro hs
    simp only [answer_options, hs]
  · intro hs
    simp only [answer_options, hs]
  · intro synset rest hs hh
    simp only [answer_options, hs, hh]

theorem answer_options_spec_witness :
    "w" ∉ answer_options
        ⟨fun _ => some [0], fun _ => [1], fun _ => [2, 3],
          fun n => if n = 2 then "w" else "x_y"⟩ "w" ∧
      (answer_options
        ⟨fun _ => some [0], fun _ => [1], fun _ => [2, 3],
          fun n => if n = 2 then "w" else "x_y"⟩ "w").length ≤ 8 ∧
      ((⟨fun _ => some [0], fun _ => [1], fun _ => [2, 3],
          fun n => if n = 2 then "w" else "x_y"⟩ : WordNet).synsets "w" = none →
        answer_options
          ⟨fun _ => some [0], fun _ => [1], fun _ => [2, 3],
            fun n => if n = 2 then "w" else "x_y"⟩ "w" = []) ∧
      ((⟨fun _ => some [0], fun _ => [1], fun _ => [2, 3],
          fun n => if n = 2 then "w" else "x_y"⟩ : WordNet).synsets "w" = some [] →
        answer_options
          ⟨fun _ => some [0], fun _ => [1], fun _ => [2, 3],
            fun n => if n = 2 then "w" else "x_y"⟩ "w" = []) ∧
      (∀ synset rest,
        (⟨fun _ => some [0], fun _ => [1], fun _ => [2, 3],
          fun n => if n = 2 then "w" else "x_y"⟩ : WordNet).synsets "w" =
            some (synset :: rest) →
        (⟨fun _ => some [0], fun _ => [1], fun _ => [2, 3],
          fun n => if n = 2 then "w" else "x_y"⟩ : WordNet).hypernyms synset = [] →
        answer_options
          ⟨fun _ => some [0], fun _ => [1], fun _ => [2, 3],
            fun n => if n = 2 then "w" else "x_y"⟩ "w" = []) :=
  answer_options_spec
    ⟨fun _ => some [0], fun _ => [1], fun _ => [2, 3],
      fun n => if n = 2 then "w" else "x_y"⟩ "w"

end AVS
